import Mathlib

/-!
Shallow embedding of `decode_keystone_ur.py` (dexrp-tools): a decoder for the
Keystone "UR:BYTES/..." container that extracts an XRPL transaction blob.

Python strings are modelled as `String`/`List Char` (ASCII-level case mapping,
matching `str.upper` on the alphabets the program uses), Python `bytes` as
`List Nat` with values in `[0, 255]`, Python exceptions as `Except`/`Option`,
and Python's dynamically typed CBOR values as the inductive `PyValue`.
-/

namespace Keystone

/-! ### Character helpers -/

/-- The character class of the regex `[0-9A-Fa-f]` used at lines 111 and 147
of the source. -/
def hexDigits : List Char :=
  ['0', '1', '2', '3', '4', '5', '6', '7', '8', '9',
   'A', 'B', 'C', 'D', 'E', 'F', 'a', 'b', 'c', 'd', 'e', 'f']

/-- Membership in the regex character class `[0-9A-Fa-f]`. -/
def isHexChar (c : Char) : Bool := hexDigits.contains c

/-- The sixteen digits used by Python's `bytes.hex()` followed by `.upper()`. -/
def hexDigitUpper (n : Nat) : Char := "0123456789ABCDEF".data.getD n 'X'

/-- Rendering of Python `value.hex().upper()` for a byte string (two uppercase
hex digits per byte).  Python bytes are in `[0, 255]`; the extra `% 16` on the
high digit only normalises out-of-range values the untyped model could hold. -/
def bytesHexUpper (bs : List Nat) : String :=
  ⟨(bs.map (fun b => [hexDigitUpper (b / 16 % 16), hexDigitUpper (b % 16)])).flatten⟩

/-- Python `str.upper()` on a list of characters (ASCII case mapping). -/
def pyUpperL (l : List Char) : List Char := l.map Char.toUpper

/-! ### decode_keystone_bytewords (source lines 13-42) -/

/-- Character value used by the bytewords loop, applied to an upper-cased
chunk character: `A..Z ↦ 0..25`, `0..9 ↦ 26..35`, anything else `0`. -/
def bytewordCharVal (c : Char) : Nat :=
  if 'A' ≤ c ∧ c ≤ 'Z' then c.toNat - 'A'.toNat
  else if '0' ≤ c ∧ c ≤ '9' then c.toNat - '0'.toNat + 26
  else 0

/-- One iteration of the bytewords loop: the chunk is upper-cased and folded
with `byte_val = (byte_val + char_val * 36 ** (3 - j)) % 256` (source line 37). -/
def bytewordChunkVal (c0 c1 c2 c3 : Char) : Nat :=
  let v0 := (0 + bytewordCharVal c0.toUpper * 36 ^ 3) % 256
  let v1 := (v0 + bytewordCharVal c1.toUpper * 36 ^ 2) % 256
  let v2 := (v1 + bytewordCharVal c2.toUpper * 36 ^ 1) % 256
  (v2 + bytewordCharVal c3.toUpper * 36 ^ 0) % 256

/-- The loop `while i < len(data) - 3: ... i += 4` of the source: one output
byte per full 4-character group, trailing remainder dropped. -/
def bytewordsAux : List Char → List Nat
  | c0 :: c1 :: c2 :: c3 :: rest => bytewordChunkVal c0 c1 c2 c3 :: bytewordsAux rest
  | _ => []

/-- Source `decode_keystone_bytewords` (lines 13-42). -/
def decode_keystone_bytewords (data : String) : List Nat :=
  bytewordsAux data.data

/-! ### Python base64.b32decode and decode_base32_alphabet (source lines 44-73) -/

/-- The standard RFC 4648 base32 alphabet used by `base64.b32decode`. -/
def stdB32Alphabet : List Char := "ABCDEFGHIJKLMNOPQRSTUVWXYZ234567".data

/-- Reverse lookup in the standard base32 alphabet (the `b32rev` table). -/
def b32CharVal (c : Char) : Option Nat := stdB32Alphabet.findIdx? (fun x => x = c)

/-- Python `s.rstrip(b'=')`: drop trailing `=` characters. -/
def rstripEqChar (l : List Char) : List Char :=
  (l.reverse.dropWhile (fun c => c = '=')).reverse

/-- Big-endian rendering `v.to_bytes (n, 'big')` truncated to `n` bytes. -/
def toBytesBE (n v : Nat) : List Nat :=
  (List.range n).map (fun i => v / 256 ^ (n - 1 - i) % 256)

/-- The quanta loop of CPython's `base64._b32decode`: consume the stripped
input in groups of eight 5-bit digits, appending `acc.to_bytes(5, 'big')` per
group (the final group may be shorter); fails on a non-alphabet character.
Returns the decoded bytes together with the `acc` of the final group. -/
def b32Loop : List Char → Nat → Nat → List Nat → Nat → Option (List Nat × Nat)
  | [], k, acc, decoded, lastAcc =>
    if k = 0 then some (decoded, lastAcc)
    else some (decoded ++ toBytesBE 5 acc, acc)
  | c :: rest, k, acc, decoded, lastAcc =>
    match b32CharVal c with
    | none => none
    | some v =>
      let acc2 := acc * 32 + v
      if k = 7 then b32Loop rest 0 0 (decoded ++ toBytesBE 5 acc2) acc2
      else b32Loop rest (k + 1) acc2 decoded lastAcc

/-- CPython `base64.b32decode` on a `str` argument: ASCII check, length must
be a multiple of 8, trailing padding stripped and validated
(`padchars ∈ {0,1,3,4,6}`), 5-bit groups decoded, and the final partial group
re-aligned (`decoded[-5:] = last[:leftover]`). -/
def pyB32Decode (s : List Char) : Except Unit (List Nat) :=
  if s.any (fun c => 128 ≤ c.toNat) then .error ()
  else if s.length % 8 ≠ 0 then .error ()
  else
    let stripped := rstripEqChar s
    let padchars := s.length - stripped.length
    match b32Loop stripped 0 0 [] 0 with
    | none => .error ()
    | some (decoded, acc) =>
      if ¬(padchars = 0 ∨ padchars = 1 ∨ padchars = 3 ∨ padchars = 4 ∨ padchars = 6) then
        .error ()
      else if padchars ≠ 0 ∧ decoded ≠ [] then
        let acc2 := acc * 32 ^ padchars
        let leftover := (43 - 5 * padchars) / 8
        .ok (decoded.take (decoded.length - 5) ++ (toBytesBE 5 acc2).take leftover)
      else .ok decoded

/-- The custom BC-UR alphabet of the source, upper-cased
(`"023456789acdefghjklmnpqrstuvwxyz".upper()`). -/
def urAlphabetUpper : List Char := "023456789ACDEFGHJKLMNPQRSTUVWXYZ".data

/-- The `str.maketrans`/`translate` table of source lines 55-62: each symbol
of the custom alphabet maps positionally to the standard base32 alphabet,
all other characters are unchanged. -/
def translateB32Char (c : Char) : Char :=
  match urAlphabetUpper.findIdx? (fun x => x = c) with
  | some i => stdB32Alphabet.getD i c
  | none => c

/-- The padding loop of source lines 64-70: try `0` through `7` trailing `=`
characters in increasing order, returning the first successful decode; the
counter counts the paddings still to try (source padding `= 8 - counter`). -/
def b32TryPads (t : List Char) : Nat → List Nat
  | 0 => []
  | n + 1 =>
    match pyB32Decode (t ++ List.replicate (8 - (n + 1)) '=') with
    | .ok bs => bs
    | .error _ => b32TryPads t n

/-- The fallback portion of `decode_base32_alphabet` (source lines 54-73):
upper-case, translate through the custom alphabet, then try paddings; every
failure is caught and ends in `b""`. -/
def base32_fallback (data : String) : List Nat :=
  b32TryPads ((data.data.map Char.toUpper).map translateB32Char) 8

/-- Source `decode_base32_alphabet` (lines 44-73): bytewords first when the
input is longer than 10 characters (used when non-empty), otherwise the
base32 fallback. -/
def decode_base32_alphabet (data : String) : List Nat :=
  if 10 < data.length then
    let bw := decode_keystone_bytewords data
    if bw ≠ [] then bw else base32_fallback data
  else base32_fallback data

/-! ### The fallback hex-run scanner (source lines 146-151) -/

/-- One pass of the regex scan for `[0-9A-Fa-f]` runs: the accumulator holds
the (reversed) run currently being matched.  A greedy match of
`([0-9A-Fa-f]{100,})` consumes a maximal run, so `re.findall` returns the
maximal runs in order of appearance (filtered by length below). -/
def hexRunsAux : List Char → List Char → List (List Char)
  | [], acc => if acc.isEmpty then [] else [acc.reverse]
  | c :: cs, acc =>
    if isHexChar c then hexRunsAux cs (c :: acc)
    else if acc.isEmpty then hexRunsAux cs []
    else acc.reverse :: hexRunsAux cs []

/-- All maximal runs of consecutive `[0-9A-Fa-f]` characters, in order. -/
def hexRuns (s : List Char) : List (List Char) := hexRunsAux s []

/-- Python `re.findall(r'([0-9A-Fa-f]{100,})', s)`: the maximal hex runs of
length at least 100, in order of appearance. -/
def re_findall_hex100 (s : List Char) : List (List Char) :=
  (hexRuns s).filter (fun r => 100 ≤ r.length)

/-- The literal tuple of source line 150. -/
def txMarkers : List (List Char) :=
  [['1', '2'], ['0', '0'], ['0', '1'], ['0', '2'], ['0', '3'], ['0', '5']]

/-- Python `match.startswith(('12', '00', '01', '02', '03', '05'))`. -/
def startsQualifying (r : List Char) : Bool :=
  txMarkers.any (fun p => p.isPrefixOf r)

/-- Method 2 of `decode_keystone_ur` (source lines 146-151): the first
qualifying hex run, upper-cased; `none` when no run qualifies. -/
def scanFallback (s : List Char) : Option String :=
  ((re_findall_hex100 s).find? startsQualifying).map (fun r => ⟨pyUpperL r⟩)

/-! ### Decoded CBOR values and extract_xrpl_transaction (source lines 89-123) -/

/-! A decoded Python value as produced by `cbor2.loads`: the tagged union the
extractor inspects with `isinstance`.  Maps (`PyEntries`) are association
sequences in encounter order (first match wins on lookup); tags, floats and
other exotic items collapse into `other`. -/
mutual
inductive PyValue where
  | str : String → PyValue
  | bytes : List Nat → PyValue
  | int : Int → PyValue
  | bool : Bool → PyValue
  | null : PyValue
  | list : PyList → PyValue
  | dict : PyEntries → PyValue
  | other : PyValue

inductive PyList where
  | nil : PyList
  | cons : PyValue → PyList → PyList

inductive PyEntries where
  | nil : PyEntries
  | cons : PyValue → PyValue → PyEntries → PyEntries
end

/-! A structural measure on decoded values, used only as recursion fuel for
the extractor; it strictly dominates the map-nesting depth. -/
mutual
def PyValue.fuel : PyValue → Nat
  | .str _ => 1
  | .bytes _ => 1
  | .int _ => 1
  | .bool _ => 1
  | .null => 1
  | .list l => l.fuel + 1
  | .dict es => es.fuel + 1
  | .other => 1

def PyList.fuel : PyList → Nat
  | .nil => 1
  | .cons v rest => v.fuel + rest.fuel + 1

def PyEntries.fuel : PyEntries → Nat
  | .nil => 1
  | .cons k v rest => k.fuel + v.fuel + rest.fuel + 1
end

/-- Python `field in cbor_data` / `cbor_data[field]` for a string key:
the first entry whose key is that text. -/
def lookupStr : PyEntries → String → Option PyValue
  | .nil, _ => none
  | .cons k v rest, name =>
    match k with
    | .str s => if s = name then some v else lookupStr rest name
    | _ => lookupStr rest name

/-- The priority list of source lines 97-105. -/
def possible_fields : List String :=
  ["signedTransaction", "signature", "txBlob", "blob", "transaction", "hex", "data"]

/-- Python `re.match(r'^[0-9A-Fa-f]+$', value)` is a match exactly when the
string is a non-empty run of hex digits, optionally followed by one final
newline (the regex `$` also matches just before a trailing newline). -/
def pyFullHexMatch (l : List Char) : Bool :=
  let core := if l.getLast? == some '\n' then l.dropLast else l
  !core.isEmpty && core.all isHexChar

/-- The per-field value test of source lines 111-114: hex text is returned
upper-cased, bytes are returned as uppercase hex, anything else fails. -/
def fieldShape (v : PyValue) : Option String :=
  match v with
  | .str s => if pyFullHexMatch s.data then some ⟨pyUpperL s.data⟩ else none
  | .bytes bs => some (bytesHexUpper bs)
  | _ => none

/-- The first priority loop of source lines 108-114: the first field name
that is present with a qualifying value wins; present fields with
non-qualifying values are skipped. -/
def priorityScan (entries : PyEntries) : Option String :=
  possible_fields.findSome? (fun f => (lookupStr entries f).bind fieldShape)

/-- The nested loop of source lines 117-121, parametrised by the recursive
call: recurse into each value that is itself a map and return the first
truthy (non-empty) result. -/
def nestedGo (rec : PyValue → Option String) : PyEntries → Option String
  | .nil => none
  | .cons _ v rest =>
    match v with
    | .dict es =>
      match rec (.dict es) with
      | some r => if r = "" then nestedGo rec rest else some r
      | none => nestedGo rec rest
    | _ => nestedGo rec rest

/-- Fuel-indexed body of `extract_xrpl_transaction`; the fuel only bounds the
map-nesting depth and is instantiated with `PyValue.fuel`, which always
suffices. -/
def extractF : Nat → PyValue → Option String
  | 0 => fun _ => none
  | fuel + 1 => fun v =>
    match v with
    | .dict entries =>
      match priorityScan entries with
      | some r => some r
      | none => nestedGo (extractF fuel) entries
    | _ => none

/-- Source `extract_xrpl_transaction` (lines 89-123). -/
def extract_xrpl_transaction (v : PyValue) : Option String :=
  extractF v.fuel v

/-! ### The CBOR byte decoder (source lines 75-87)

Modelled from the spec: the binary object decoder is delegated to the external
`cbor2` library in the source (`decode_cbor_bytes`, lines 75-87), which is not
part of this repository; section 4.2 of the spec describes the required
behaviour (major-type/length headers, recursive arrays and maps preserving
encounter order, `none` on empty, malformed or out-of-bounds input). -/

/-- Decode the length/value argument of a CBOR head byte: additional
information `0..23` is immediate, `24..27` read 1, 2, 4 or 8 big-endian
bytes, `28..31` (reserved/indefinite) are treated as malformed. -/
def readArg (ai : Nat) (bs : List Nat) : Option (Nat × List Nat) :=
  if ai < 24 then some (ai, bs)
  else if ai = 24 then
    match bs with
    | b :: r => some (b, r)
    | [] => none
  else if ai = 25 then
    match bs with
    | b1 :: b2 :: r => some (b1 * 256 + b2, r)
    | _ => none
  else if ai = 26 then
    match bs with
    | b1 :: b2 :: b3 :: b4 :: r => some (((b1 * 256 + b2) * 256 + b3) * 256 + b4, r)
    | _ => none
  else if ai = 27 then
    match bs with
    | b1 :: b2 :: b3 :: b4 :: b5 :: b6 :: b7 :: b8 :: r =>
      some (((((((b1 * 256 + b2) * 256 + b3) * 256 + b4) * 256 + b5) * 256 + b6) * 256
             + b7) * 256 + b8, r)
    | _ => none
  else none

/-- Modelled from the spec: CBOR text strings decode to `str`.  The model
restricts to ASCII payloads (a byte `≥ 128` is treated as malformed); the
claims under verification only exercise ASCII text. -/
def asciiStr (bs : List Nat) : Option String :=
  if bs.all (fun b => b < 128) then some ⟨bs.map (fun b => Char.ofNat b)⟩ else none

/-- Decode `n` consecutive CBOR items (array elements). -/
def decodeSeq (dec : List Nat → Option (PyValue × List Nat)) :
    Nat → List Nat → Option (PyList × List Nat)
  | 0, bs => some (.nil, bs)
  | n + 1, bs =>
    match dec bs with
    | some (v, rest) =>
      match decodeSeq dec n rest with
      | some (vs, rest2) => some (.cons v vs, rest2)
      | none => none
    | none => none

/-- Decode `n` consecutive CBOR key/value pairs in encounter order. -/
def decodePairs (dec : List Nat → Option (PyValue × List Nat)) :
    Nat → List Nat → Option (PyEntries × List Nat)
  | 0, bs => some (.nil, bs)
  | n + 1, bs =>
    match dec bs with
    | some (k, rest) =>
      match dec rest with
      | some (v, rest2) =>
        match decodePairs dec n rest2 with
        | some (es, rest3) => some (.cons k v es, rest3)
        | none => none
      | none => none
    | none => none

/-- Modelled from the spec: decode one CBOR item.  Major types: 0/1 integers,
2 byte strings, 3 text strings, 4 arrays, 5 maps, 6 tags (payload decoded,
result collapsed to `other`), 7 simple values, booleans, null and floats.
Each item consumes at least one byte, so fuel `length + 1` never runs out. -/
def decodeItem : Nat → List Nat → Option (PyValue × List Nat)
  | 0 => fun _ => none
  | fuel + 1 => fun bs =>
    match bs with
    | [] => none
    | b :: rest =>
      let major := b / 32
      let ai := b % 32
      if major = 0 then
        (readArg ai rest).map (fun nr => (.int (Int.ofNat nr.1), nr.2))
      else if major = 1 then
        (readArg ai rest).map (fun nr => (.int (-1 - Int.ofNat nr.1), nr.2))
      else if major = 2 then
        match readArg ai rest with
        | some (n, r) => if n ≤ r.length then some (.bytes (r.take n), r.drop n) else none
        | none => none
      else if major = 3 then
        match readArg ai rest with
        | some (n, r) =>
          if n ≤ r.length then
            (asciiStr (r.take n)).map (fun s => (.str s, r.drop n))
          else none
        | none => none
      else if major = 4 then
        match readArg ai rest with
        | some (n, r) => (decodeSeq (decodeItem fuel) n r).map (fun vr => (.list vr.1, vr.2))
        | none => none
      else if major = 5 then
        match readArg ai rest with
        | some (n, r) => (decodePairs (decodeItem fuel) n r).map (fun er => (.dict er.1, er.2))
        | none => none
      else if major = 6 then
        match readArg ai rest with
        | some (_, r) => (decodeItem fuel r).map (fun vr => (PyValue.other, vr.2))
        | none => none
      else
        if ai = 20 then some (.bool false, rest)
        else if ai = 21 then some (.bool true, rest)
        else if ai = 22 then some (.null, rest)
        else if ai < 24 then some (.other, rest)
        else if ai = 24 then
          match rest with
          | _ :: r => some (.other, r)
          | [] => none
        else if ai = 25 then
          match rest with
          | _ :: _ :: r => some (.other, r)
          | _ => none
        else if ai = 26 then
          match rest with
          | _ :: _ :: _ :: _ :: r => some (.other, r)
          | _ => none
        else if ai = 27 then
          match rest with
          | _ :: _ :: _ :: _ :: _ :: _ :: _ :: _ :: r => some (.other, r)
          | _ => none
        else none

/-- Source `decode_cbor_bytes` (lines 75-87): decode one leading CBOR object
(`cbor2.loads` ignores trailing bytes), `none` on any failure. -/
def decode_cbor_bytes (data : List Nat) : Option PyValue :=
  (decodeItem (data.length + 1) data).map (fun vr => vr.1)

/-! ### The orchestrator decode_keystone_ur (source lines 125-153) -/

/-- Python truthiness for decoded CBOR values, as used by the orchestrator's
`if decoded_bytes:`, `if cbor_data:` and `if tx_blob:` tests.  Exotic values
(`other`, covering tags and non-zero floats) are treated as truthy; the
claims under verification never reach a falsy `other`. -/
def pyTruthy : PyValue → Bool
  | .str s => !s.isEmpty
  | .bytes bs => !bs.isEmpty
  | .int n => n != 0
  | .bool b => b
  | .null => false
  | .list .nil => false
  | .list (.cons _ _) => true
  | .dict .nil => false
  | .dict (.cons _ _ _) => true
  | .other => true

/-- The literal marker of source line 130. -/
def urBytesMarker : List Char := "UR:BYTES/".data

/-- Source lines 130-133: strip the marker exactly once when present. -/
def stripContent (ur_data : String) : List Char :=
  if urBytesMarker.isPrefixOf ur_data.data then ur_data.data.drop 9 else ur_data.data

/-- Source `decode_keystone_ur` (lines 125-153): strip the `UR:BYTES/` marker
once, run the byte decoder, the CBOR decoder and the extractor, and fall back
to the hex-run scan when any step yields a falsy result. -/
def decode_keystone_ur (ur_data : String) : Option String :=
  let content : List Char := stripContent ur_data
  let decoded_bytes := decode_base32_alphabet ⟨content⟩
  let step1 : Option String :=
    if decoded_bytes.isEmpty then none
    else
      match decode_cbor_bytes decoded_bytes with
      | none => none
      | some v =>
        if pyTruthy v then
          match extract_xrpl_transaction v with
          | some t => if t.isEmpty then none else some t
          | none => none
        else none
  match step1 with
  | some t => some t
  | none => scanFallback content

/-! ### Derived notions used by the statements below -/

/-- Success test on the result of `pyB32Decode` (a decode that raised is
an `error`). -/
def pyB32Ok : Except Unit (List Nat) → Bool
  | .ok _ => true
  | .error _ => false

/-- The translated input that the padding loop of `decode_base32_alphabet`
feeds to `base64.b32decode`. -/
def translatedInput (data : String) : List Char :=
  (data.data.map Char.toUpper).map translateB32Char

/-- The sixteen uppercase hexadecimal digits of the spec's `^[0-9A-F]+$`. -/
def upperHexDigits : List Char := "0123456789ABCDEF".data

/-- Membership in the character class `[0-9A-F]`. -/
def isUpperHexChar (c : Char) : Bool := upperHexDigits.contains c

/-- The shape every string produced by the extractor or the scanner actually
has: uppercase hexadecimal digits, possibly empty, optionally followed by a
single trailing newline. -/
def BlobShape (out : String) : Prop :=
  ∃ core, (out.data = core ∨ out.data = core ++ ['\n']) ∧
    ∀ c ∈ core, isUpperHexChar c = true

/-- The nested-map search of source lines 117-121 as a standalone function
(the second loop of `extract_xrpl_transaction`). -/
def nestedScan (es : PyEntries) : Option String :=
  nestedGo extract_xrpl_transaction es

/-- A run qualifies for the fallback scanner when it is at least 100
characters long and starts with one of the transaction markers. -/
def QualRun (r : List Char) : Prop :=
  100 ≤ r.length ∧ startsQualifying r = true

/-- The sublist `r` of `s` is a maximal run of hexadecimal characters
preceded by the characters `a`: it is non-empty, all-hex, and bounded on
both sides by a non-hex character or the end of the string. -/
def IsMaxHexRunAt (s a r : List Char) : Prop :=
  r ≠ [] ∧ (∀ c ∈ r, isHexChar c = true) ∧
  (∃ b, s = a ++ r ++ b ∧ (b = [] ∨ ∃ c b2, b = c :: b2 ∧ isHexChar c = false)) ∧
  (a = [] ∨ ∃ a2 c, a = a2 ++ [c] ∧ isHexChar c = false)

/-! ## Lemmas about the bytewords decoder -/

theorem bytewordsAux_length : ∀ l : List Char, (bytewordsAux l).length = l.length / 4
  | [] => by simp [bytewordsAux]
  | [_] => by simp [bytewordsAux]
  | [_, _] => by simp [bytewordsAux]
  | [_, _, _] => by simp [bytewordsAux]
  | _ :: _ :: _ :: _ :: rest => by
    simp only [bytewordsAux, List.length_cons, bytewordsAux_length rest]
    omega

theorem bytewordsAux_lt : ∀ l : List Char, ∀ b ∈ bytewordsAux l, b < 256
  | [] => by simp [bytewordsAux]
  | [_] => by simp [bytewordsAux]
  | [_, _] => by simp [bytewordsAux]
  | [_, _, _] => by simp [bytewordsAux]
  | c0 :: c1 :: c2 :: c3 :: rest => by
    intro b hb
    simp only [bytewordsAux, List.mem_cons] at hb
    rcases hb with rfl | hb
    · exact Nat.mod_lt _ (by norm_num)
    · exact bytewordsAux_lt rest b hb

theorem getD_cons4 (c0 c1 c2 c3 : Char) (rest : List Char) (n : Nat) (d : Char) :
    (c0 :: c1 :: c2 :: c3 :: rest).getD (n + 4) d = rest.getD n d := rfl

/-- The iterated `% 256` of the source loop equals a single reduction of the
weighted sum. -/
theorem bytewordChunkVal_eq (c0 c1 c2 c3 : Char) :
    bytewordChunkVal c0 c1 c2 c3 =
      (bytewordCharVal c0.toUpper * 36 ^ 3 + bytewordCharVal c1.toUpper * 36 ^ 2 +
       bytewordCharVal c2.toUpper * 36 + bytewordCharVal c3.toUpper) % 256 := by
  simp only [bytewordChunkVal]
  norm_num

theorem bytewordsAux_getD : ∀ (l : List Char) (i : Nat), i < l.length / 4 →
    (bytewordsAux l).getD i 0 =
      (bytewordCharVal ((l.getD (4 * i) ' ').toUpper) * 36 ^ 3 +
       bytewordCharVal ((l.getD (4 * i + 1) ' ').toUpper) * 36 ^ 2 +
       bytewordCharVal ((l.getD (4 * i + 2) ' ').toUpper) * 36 +
       bytewordCharVal ((l.getD (4 * i + 3) ' ').toUpper)) % 256
  | [], i, h => by simp only [List.length_nil] at h; omega
  | [_], i, h => by simp only [List.length_cons, List.length_nil] at h; omega
  | [_, _], i, h => by simp only [List.length_cons, List.length_nil] at h; omega
  | [_, _, _], i, h => by simp only [List.length_cons, List.length_nil] at h; omega
  | c0 :: c1 :: c2 :: c3 :: rest, 0, _ => by
    simpa [bytewordsAux, List.getD] using bytewordChunkVal_eq c0 c1 c2 c3
  | c0 :: c1 :: c2 :: c3 :: rest, i + 1, h => by
    have hlt : i < rest.length / 4 := by
      simp only [List.length_cons] at h
      omega
    have e0 : 4 * (i + 1) = 4 * i + 4 := by ring
    have e1 : 4 * (i + 1) + 1 = (4 * i + 1) + 4 := by ring
    have e2 : 4 * (i + 1) + 2 = (4 * i + 2) + 4 := by ring
    have e3 : 4 * (i + 1) + 3 = (4 * i + 3) + 4 := by ring
    rw [e1, e2, e3, e0, getD_cons4, getD_cons4, getD_cons4, getD_cons4]
    simpa [bytewordsAux] using bytewordsAux_getD rest i hlt

/-- C5: word-chunk decoding is total and deterministic: it produces exactly
`length / 4` bytes, one per consecutive non-overlapping 4-character group,
each equal to the base-36 weighted sum of the group's digit values reduced
modulo 256, and every output byte is below 256. -/
theorem bytewords_total_spec (data : String) :
    (decode_keystone_bytewords data).length = data.length / 4 ∧
    (∀ i, i < data.length / 4 →
      (decode_keystone_bytewords data).getD i 0 =
        (bytewordCharVal ((data.data.getD (4 * i) ' ').toUpper) * 36 ^ 3 +
         bytewordCharVal ((data.data.getD (4 * i + 1) ' ').toUpper) * 36 ^ 2 +
         bytewordCharVal ((data.data.getD (4 * i + 2) ' ').toUpper) * 36 +
         bytewordCharVal ((data.data.getD (4 * i + 3) ' ').toUpper)) % 256) ∧
    (∀ b ∈ decode_keystone_bytewords data, b < 256) :=
  ⟨bytewordsAux_length data.data,
   fun i hi => bytewordsAux_getD data.data i hi,
   bytewordsAux_lt data.data⟩

/-- Witness for C5 at the concrete input `"AB12"` and index `0`. -/
theorem bytewords_total_spec_witness :
    (decode_keystone_bytewords "AB12").getD 0 0 =
      (bytewordCharVal ((("AB12" : String).data.getD (4 * 0) ' ').toUpper) * 36 ^ 3 +
       bytewordCharVal ((("AB12" : String).data.getD (4 * 0 + 1) ' ').toUpper) * 36 ^ 2 +
       bytewordCharVal ((("AB12" : String).data.getD (4 * 0 + 2) ' ').toUpper) * 36 +
       bytewordCharVal ((("AB12" : String).data.getD (4 * 0 + 3) ' ').toUpper)) % 256 :=
  (bytewords_total_spec "AB12").2.1 0 (by decide)

/-- C6: the text-to-bytes decoder runs the word-chunk strategy exactly when
the input is longer than 10 characters (and then returns its result), and
otherwise runs only the alphabet-substitution base32 fallback. -/
theorem decode_strategy_select (data : String) :
    decode_base32_alphabet data =
      if 10 < data.length then decode_keystone_bytewords data
      else base32_fallback data := by
  unfold decode_base32_alphabet
  by_cases h : 10 < data.length
  · have hlen : (decode_keystone_bytewords data).length = data.length / 4 :=
      bytewordsAux_length data.data
    have hne : decode_keystone_bytewords data ≠ [] := by
      intro he
      rw [he] at hlen
      simp only [List.length_nil] at hlen
      have : data.length = data.data.length := rfl
      omega
    simp [h, hne]
  · simp [h]

/-! ## Lemmas about the base32 fallback -/

theorem b32TryPads_all_fail : ∀ (t : List Char) (n : Nat), n ≤ 8 →
    (∀ p, p < 8 → pyB32Ok (pyB32Decode (t ++ List.replicate p '=')) = false) →
    b32TryPads t n = []
  | _, 0, _, _ => rfl
  | t, n + 1, hn, hf => by
    have h8 : 8 - (n + 1) < 8 := by omega
    have hfe := hf (8 - (n + 1)) h8
    unfold b32TryPads
    cases hd : pyB32Decode (t ++ List.replicate (8 - (n + 1)) '=') with
    | ok bs => rw [hd] at hfe; simp [pyB32Ok] at hfe
    | error e => exact b32TryPads_all_fail t n (by omega) hf

/-- C9: failure is signalled by an empty or `none` result, never by an
exception: in particular, when every padded `b32decode` attempt of the
fallback raises (is an `error` in the model) and the word-chunk strategy is
structurally skipped, the text-to-bytes decoder returns the empty byte
sequence rather than propagating the failure.  (Totality of every component
is by construction of the embedding: all components are total functions into
`List`/`Option` results.) -/
theorem decodeText_total_failure (data : String) (hlen : data.length ≤ 10)
    (hfail : ∀ p, p < 8 →
      pyB32Ok (pyB32Decode (translatedInput data ++ List.replicate p '=')) = false) :
    decode_base32_alphabet data = [] := by
  unfold decode_base32_alphabet
  rw [if_neg (by omega)]
  exact b32TryPads_all_fail (translatedInput data) 8 (by omega) hfail

/-- Witness for C9 at the concrete undecodable input `"###"`. -/
theorem decodeText_total_failure_witness : decode_base32_alphabet "###" = [] :=
  decodeText_total_failure "###" (by decide) (by decide)

/-! ## Lemmas about the extractor -/

theorem PyValue.fuel_pos (v : PyValue) : 0 < v.fuel := by
  cases v <;> simp only [PyValue.fuel] <;> omega

/-- A list-style induction principle for `PyEntries` (values opaque),
obtained by induction on the structural measure. -/
theorem PyEntries.ind {motive : PyEntries → Prop} (hnil : motive .nil)
    (hcons : ∀ k v rest, motive rest → motive (.cons k v rest)) :
    ∀ es : PyEntries, motive es := by
  have key : ∀ (n : Nat) (es : PyEntries), es.fuel ≤ n → motive es := by
    intro n
    induction n with
    | zero =>
      intro es h
      exfalso
      cases es <;> simp only [PyEntries.fuel] at h <;> omega
    | succ n IHn =>
      intro es h
      cases es with
      | nil => exact hnil
      | cons k v rest =>
        have hk := PyValue.fuel_pos k
        have hv := PyValue.fuel_pos v
        simp only [PyEntries.fuel] at h
        exact hcons k v rest (IHn rest (by omega))
  intro es
  exact key es.fuel es le_rfl

/-- The result of `extractF` does not depend on the fuel as long as the fuel
dominates the structural measure of the value. -/
theorem extractF_irrel : ∀ (n f g : Nat) (v : PyValue), v.fuel ≤ n → v.fuel ≤ f →
    v.fuel ≤ g → extractF f v = extractF g v := by
  intro n
  induction n using Nat.strong_induction_on with
  | _ n IH =>
    intro f g v hn hf hg
    have hpos := PyValue.fuel_pos v
    obtain ⟨f', rfl⟩ : ∃ f', f = f' + 1 := ⟨f - 1, by omega⟩
    obtain ⟨g', rfl⟩ : ∃ g', g = g' + 1 := ⟨g - 1, by omega⟩
    cases v with
    | str s => simp only [extractF]
    | bytes bs => simp only [extractF]
    | int i => simp only [extractF]
    | bool b => simp only [extractF]
    | null => simp only [extractF]
    | list l => simp only [extractF]
    | other => simp only [extractF]
    | dict es =>
      simp only [extractF]
      cases hp : priorityScan es with
      | some r => rfl
      | none =>
        simp only [PyValue.fuel] at hn hf hg
        have inner : ∀ es2 : PyEntries, es2.fuel < n → es2.fuel ≤ f' → es2.fuel ≤ g' →
            nestedGo (extractF f') es2 = nestedGo (extractF g') es2 := by
          intro es2
          induction es2 using PyEntries.ind with
          | hnil => intro _ _ _; rfl
          | hcons k v2 rest IHes =>
            intro h1 h2 h3
            simp only [PyEntries.fuel] at h1 h2 h3
            have hkpos := PyValue.fuel_pos k
            have hvpos := PyValue.fuel_pos v2
            have hrest : nestedGo (extractF f') rest = nestedGo (extractF g') rest :=
              IHes (by omega) (by omega) (by omega)
            cases v2 with
            | dict sub =>
              have hv2 : extractF f' (.dict sub) = extractF g' (.dict sub) :=
                IH (PyValue.fuel (.dict sub)) (by omega) f' g' (.dict sub)
                  le_rfl (by omega) (by omega)
              simp only [nestedGo, hv2]
              cases hres : extractF g' (PyValue.dict sub) with
              | some r =>
                by_cases hr : r = "" <;> simp [hr, hrest]
              | none => exact hrest
            | str s => simpa only [nestedGo] using hrest
            | bytes bs => simpa only [nestedGo] using hrest
            | int i => simpa only [nestedGo] using hrest
            | bool b => simpa only [nestedGo] using hrest
            | null => simpa only [nestedGo] using hrest
            | list l => simpa only [nestedGo] using hrest
            | other => simpa only [nestedGo] using hrest
        exact inner es (by omega) (by omega) (by omega)

/-- Any sufficient fuel computes `extract_xrpl_transaction`. -/
theorem extractF_eq_extract (f : Nat) (v : PyValue) (h : v.fuel ≤ f) :
    extractF f v = extract_xrpl_transaction v :=
  extractF_irrel v.fuel f v.fuel v le_rfl h le_rfl

theorem nestedGo_extract (f : Nat) : ∀ es : PyEntries, es.fuel ≤ f →
    nestedGo (extractF f) es = nestedScan es := by
  intro es
  induction es using PyEntries.ind with
  | hnil => intro _; rfl
  | hcons k v2 rest IHes =>
    intro h
    simp only [PyEntries.fuel] at h
    have hkpos := PyValue.fuel_pos k
    have hrest := IHes (by omega)
    cases v2 with
    | dict sub =>
      have hv2 : extractF f (.dict sub) = extract_xrpl_transaction (.dict sub) :=
        extractF_eq_extract f (.dict sub) (by omega)
      simp only [nestedScan, nestedGo, hv2] at hrest ⊢
      cases hres : extract_xrpl_transaction (PyValue.dict sub) with
      | some r => by_cases hr : r = "" <;> simp [hr, hrest]
      | none => exact hrest
    | str s => simpa only [nestedScan, nestedGo] using hrest
    | bytes bs => simpa only [nestedScan, nestedGo] using hrest
    | int i => simpa only [nestedScan, nestedGo] using hrest
    | bool b => simpa only [nestedScan, nestedGo] using hrest
    | null => simpa only [nestedScan, nestedGo] using hrest
    | list l => simpa only [nestedScan, nestedGo] using hrest
    | other => simpa only [nestedScan, nestedGo] using hrest

/-- Structure of the extractor on a map: the whole priority pass first, the
nested-map search second. -/
theorem extract_dict_decomp (es : PyEntries) :
    extract_xrpl_transaction (.dict es) =
      match priorityScan es with
      | some r => some r
      | none => nestedScan es := by
  show extractF (PyValue.fuel (.dict es)) (.dict es) = _
  have hfe : PyValue.fuel (.dict es) = es.fuel + 1 := by simp [PyValue.fuel]
  rw [hfe]
  simp only [extractF]
  cases hp : priorityScan es with
  | some r => rfl
  | none => exact nestedGo_extract es.fuel es le_rfl

/-- C1 (counterexample): in the map `{signedTransaction: 5, signature: h'11'}`
the first-present priority field `signedTransaction` holds a wrong-shaped
value (an integer), yet the extractor returns `"11"` from the subsequent
priority field `signature`, while the nested-map search alone returns `none`
— so the extractor does not proceed directly to the nested search. -/
theorem extract_fallthrough_cex :
    extract_xrpl_transaction (.dict (.cons (.str "signedTransaction") (.int 5)
      (.cons (.str "signature") (.bytes [17]) .nil))) = some "11" ∧
    nestedScan (.cons (.str "signedTransaction") (.int 5)
      (.cons (.str "signature") (.bytes [17]) .nil)) = none ∧
    fieldShape (.int 5) = none := by decide

/-- C1 (amended): when a present priority field holds a wrong-shaped value
the extractor skips it and keeps trying the subsequent field names of the
priority list; the nested-map search runs only after the whole priority pass
found no qualifying field.  Structurally: on every map the extractor is the
priority pass followed, on failure, by the nested search. -/
theorem extract_priority_then_nested (es : PyEntries) :
    extract_xrpl_transaction (.dict es) =
      match priorityScan es with
      | some r => some r
      | none => nestedScan es :=
  extract_dict_decomp es

/-- C2: the map `{signature: "zz", txBlob: "1122"}`, whose first-present
priority field `signature` holds non-hex text, extracts `"1122"`. -/
theorem extract_priority_concrete :
    extract_xrpl_transaction (.dict (.cons (.str "signature") (.str "zz")
      (.cons (.str "txBlob") (.str "1122") .nil))) = some "1122" := by decide

/-- C8: the map `{"other": {"hex": "AABB"}}` has no top-level priority
field and extracts `"AABB"` through the nested-map recursion. -/
theorem extract_nested_concrete :
    extract_xrpl_transaction (.dict (.cons (.str "other")
      (.dict (.cons (.str "hex") (.str "AABB") .nil)) .nil)) = some "AABB" := by decide

/-! ## C10: the empty blob as a failure signal -/

theorem findSome?_first {α β : Type} (d : α) : ∀ (l : List α) (f : α → Option β) (i : Nat)
    (r : β), i < l.length → (∀ j, j < i → f (l.getD j d) = none) →
    f (l.getD i d) = some r → l.findSome? f = some r
  | [], _, i, _, h, _, _ => by simp at h
  | x :: t, f, 0, r, _, _, hi => by
    have hx : f x = some r := hi
    rw [List.findSome?_cons, hx]
  | x :: t, f, i + 1, r, h, hj, hi => by
    have h0 : f x = none := hj 0 (by omega)
    rw [List.findSome?_cons, h0]
    exact findSome?_first d t f i r (by simpa using Nat.lt_of_succ_lt_succ (by simpa using h))
      (fun j hjj => hj (j + 1) (by omega)) hi

/-- C10: a first-present priority field holding the empty byte string makes
the extractor return the empty string (the hex rendering of zero bytes); the
nested-map search skips a sub-map yielding that empty string, and the
orchestrator treats the empty string as "no result" and falls through to the
fallback scanner. -/
theorem empty_blob_treated_as_failure :
    (∀ (es : PyEntries) (i : Nat), i < possible_fields.length →
      (∀ j, j < i → lookupStr es (possible_fields.getD j "") = none) →
      lookupStr es (possible_fields.getD i "") = some (.bytes []) →
      extract_xrpl_transaction (.dict es) = some "") ∧
    (∀ (k : PyValue) (sub : PyEntries) (rest : PyEntries),
      extract_xrpl_transaction (.dict sub) = some "" →
      nestedScan (.cons k (.dict sub) rest) = nestedScan rest) ∧
    (∀ (ur : String) (v : PyValue),
      decode_base32_alphabet ⟨stripContent ur⟩ ≠ [] →
      decode_cbor_bytes (decode_base32_alphabet ⟨stripContent ur⟩) = some v →
      pyTruthy v = true →
      extract_xrpl_transaction v = some "" →
      decode_keystone_ur ur = scanFallback (stripContent ur)) := by
  refine ⟨?_, ?_, ?_⟩
  · intro es i hlen hj hi
    have hscan : priorityScan es = some "" := by
      refine findSome?_first "" possible_fields
        (fun fld => (lookupStr es fld).bind fieldShape) i "" hlen ?_ ?_
      · intro j hjlt
        show (lookupStr es (possible_fields.getD j "")).bind fieldShape = none
        rw [hj j hjlt]
        rfl
      · show (lookupStr es (possible_fields.getD i "")).bind fieldShape = some ""
        rw [hi]
        decide
    rw [extract_dict_decomp, hscan]
  · intro k sub rest h
    simp [nestedScan, nestedGo, h]
  · intro ur v h1 h2 h3 h4
    have h1e : (decode_base32_alphabet ⟨stripContent ur⟩).isEmpty = false := by
      cases hx : decode_base32_alphabet ⟨stripContent ur⟩ with
      | nil => exact absurd hx h1
      | cons a t => rfl
    simp only [decode_keystone_ur, h1e, h2, h3, h4]
    rfl

/-- Witness for C10: the map `{txBlob: h''}` (index 2 of the priority list,
with the two earlier names absent), a nested occurrence of it, and the UR
input whose word-chunk bytes decode to that CBOR map. -/
theorem empty_blob_treated_as_failure_witness :
    extract_xrpl_transaction (.dict (.cons (.str "txBlob") (.bytes []) .nil)) = some "" ∧
    nestedScan (.cons (.str "k") (.dict (.cons (.str "txBlob") (.bytes []) .nil)) .nil) =
      nestedScan .nil ∧
    decode_keystone_ur "AAERAAC4AADIAADMAAB4AADAAADDAAC0AAB2" =
      scanFallback (stripContent "AAERAAC4AADIAADMAAB4AADAAADDAAC0AAB2") :=
  ⟨empty_blob_treated_as_failure.1 (.cons (.str "txBlob") (.bytes []) .nil) 2 (by decide)
     (by intro j hj; interval_cases j <;> rfl) (by rfl),
   empty_blob_treated_as_failure.2.1 (.str "k") (.cons (.str "txBlob") (.bytes []) .nil) .nil
     (by decide),
   empty_blob_treated_as_failure.2.2 "AAERAAC4AADIAADMAAB4AADAAADDAAC0AAB2"
     (.dict (.cons (.str "txBlob") (.bytes []) .nil)) (by decide) (by rfl) (by rfl) (by decide)⟩

/-! ## C3: the shape of produced blobs -/

theorem hexUpper_ok (c : Char) (h : isHexChar c = true) :
    isUpperHexChar c.toUpper = true := by
  have hm : c ∈ hexDigits := by
    simpa [isHexChar] using h
  fin_cases hm <;> decide

theorem hexDigitUpper_ok (n : Nat) (h : n < 16) : isUpperHexChar (hexDigitUpper n) = true := by
  interval_cases n <;> decide

theorem bytesHexUpper_shape (bs : List Nat) : BlobShape (bytesHexUpper bs) := by
  refine ⟨(bytesHexUpper bs).data, Or.inl rfl, ?_⟩
  intro c hc
  simp only [bytesHexUpper, List.mem_flatten, List.mem_map] at hc
  obtain ⟨sub, ⟨b, _, rfl⟩, hcsub⟩ := hc
  simp only [List.mem_cons, List.not_mem_nil, or_false] at hcsub
  rcases hcsub with rfl | rfl
  · exact hexDigitUpper_ok _ (Nat.mod_lt _ (by norm_num))
  · exact hexDigitUpper_ok _ (Nat.mod_lt _ (by norm_num))

/-- Inversion of the Python regex test `re.match(r'^[0-9A-Fa-f]+$', s)`. -/
theorem pyFullHexMatch_decomp (l : List Char) (h : pyFullHexMatch l = true) :
    ∃ core, (l = core ∨ l = core ++ ['\n']) ∧ core ≠ [] ∧ ∀ c ∈ core, isHexChar c = true := by
  simp only [pyFullHexMatch] at h
  cases hb : (l.getLast? == some '\n') with
  | true =>
    rw [hb] at h
    simp only [Bool.and_eq_true, Bool.not_eq_true', List.all_eq_true] at h
    have hlast : l.getLast? = some '\n' := by
      have := (beq_iff_eq (a := l.getLast?) (b := some '\n')).mp hb
      exact this
    have hne : l ≠ [] := by
      intro he
      rw [he] at hlast
      simp at hlast
    refine ⟨l.dropLast, Or.inr ?_, ?_, h.2⟩
    · have hg : l.getLast hne = '\n' := by
        have := List.getLast?_eq_getLast l hne
        rw [hlast] at this
        exact (Option.some.injEq _ _).mp this.symm
      conv_lhs => rw [(List.dropLast_append_getLast hne).symm]
      rw [hg]
    · intro he
      rw [he] at h
      simp [List.isEmpty] at h
  | false =>
    rw [hb] at h
    simp only [Bool.and_eq_true, Bool.not_eq_true', List.all_eq_true] at h
    refine ⟨l, Or.inl rfl, ?_, h.2⟩
    intro he
    rw [he] at h
    simp [List.isEmpty] at h

theorem fieldShape_shape (v : PyValue) (out : String) (h : fieldShape v = some out) :
    BlobShape out := by
  cases v with
  | str s =>
    simp only [fieldShape] at h
    by_cases hm : pyFullHexMatch s.data = true
    · rw [if_pos hm] at h
      obtain ⟨core, hcore, _, hhex⟩ := pyFullHexMatch_decomp s.data hm
      refine ⟨core.map Char.toUpper, ?_, ?_⟩
      · rcases hcore with hc | hc
        · left
          have : out = ⟨pyUpperL s.data⟩ := (Option.some.injEq _ _).mp h.symm
          rw [this]
          show pyUpperL s.data = _
          rw [hc]
          rfl
        · right
          have : out = ⟨pyUpperL s.data⟩ := (Option.some.injEq _ _).mp h.symm
          rw [this]
          show pyUpperL s.data = _
          rw [hc]
          simp [pyUpperL]
      · intro c hc
        obtain ⟨c0, hc0, rfl⟩ := List.mem_map.mp hc
        exact hexUpper_ok c0 (hhex c0 hc0)
    · rw [if_neg hm] at h
      exact absurd h (by simp)
  | bytes bs =>
    simp only [fieldShape, Option.some.injEq] at h
    rw [← h]
    exact bytesHexUpper_shape bs
  | int i => simp [fieldShape] at h
  | bool b => simp [fieldShape] at h
  | null => simp [fieldShape] at h
  | list l => simp [fieldShape] at h
  | dict es => simp [fieldShape] at h
  | other => simp [fieldShape] at h

theorem nestedGo_some (rec : PyValue → Option String) :
    ∀ (es : PyEntries) (out : String), nestedGo rec es = some out →
      ∃ v, rec v = some out := by
  intro es
  induction es using PyEntries.ind with
  | hnil => intro out h; simp [nestedGo] at h
  | hcons k v rest IH =>
    intro out h
    cases v with
    | dict sub =>
      simp only [nestedGo] at h
      cases hres : rec (PyValue.dict sub) with
      | some r =>
        rw [hres] at h
        have h' : (if r = "" then nestedGo rec rest else some r) = some out := h
        by_cases hr : r = ""
        · rw [if_pos hr] at h'
          exact IH out h'
        · rw [if_neg hr] at h'
          exact ⟨.dict sub, by rw [hres, h']⟩
      | none =>
        rw [hres] at h
        exact IH out h
    | str s => exact IH out h
    | bytes bs => exact IH out h
    | int i => exact IH out h
    | bool b => exact IH out h
    | null => exact IH out h
    | list l => exact IH out h
    | other => exact IH out h

theorem extractF_shape : ∀ (f : Nat) (v : PyValue) (out : String),
    extractF f v = some out → BlobShape out := by
  intro f
  induction f with
  | zero => intro v out h; simp [extractF] at h
  | succ f IH =>
    intro v out h
    cases v with
    | dict es =>
      simp only [extractF] at h
      cases hp : priorityScan es with
      | some r =>
        rw [hp] at h
        obtain ⟨fld, _, hfld⟩ := List.exists_of_findSome?_eq_some (hp : priorityScan es = _)
        obtain ⟨v', _, hshape⟩ := Option.bind_eq_some.mp hfld
        have : r = out := (Option.some.injEq _ _).mp h
        rw [← this]
        exact fieldShape_shape v' r hshape
      | none =>
        rw [hp] at h
        obtain ⟨v', hv'⟩ := nestedGo_some (extractF f) es out h
        exact IH v' out hv'
    | str s => simp [extractF] at h
    | bytes bs => simp [extractF] at h
    | int i => simp [extractF] at h
    | bool b => simp [extractF] at h
    | null => simp [extractF] at h
    | list l => simp [extractF] at h
    | other => simp [extractF] at h

theorem hexRunsAux_all_hex : ∀ (l acc : List Char), (∀ c ∈ acc, isHexChar c = true) →
    ∀ r ∈ hexRunsAux l acc, ∀ c ∈ r, isHexChar c = true
  | [], acc, hacc, r, hr => by
    simp only [hexRunsAux] at hr
    by_cases he : acc.isEmpty
    · rw [if_pos he] at hr
      simp at hr
    · rw [if_neg he] at hr
      simp only [List.mem_cons, List.not_mem_nil, or_false] at hr
      intro c hc
      rw [hr] at hc
      exact hacc c (List.mem_reverse.mp hc)
  | x :: cs, acc, hacc, r, hr => by
    simp only [hexRunsAux] at hr
    by_cases hx : isHexChar x
    · rw [if_pos hx] at hr
      refine hexRunsAux_all_hex cs (x :: acc) ?_ r hr
      intro c hc
      rcases List.mem_cons.mp hc with rfl | hc
      · exact hx
      · exact hacc c hc
    · rw [if_neg hx] at hr
      by_cases he : acc.isEmpty
      · rw [if_pos he] at hr
        exact hexRunsAux_all_hex cs [] (by simp) r hr
      · rw [if_neg he] at hr
        rcases List.mem_cons.mp hr with rfl | hr
        · intro c hc
          exact hacc c (List.mem_reverse.mp hc)
        · exact hexRunsAux_all_hex cs [] (by simp) r hr

/-- C3 (counterexample): the map `{txBlob: "ABC\n"}` makes the extractor
produce `"ABC\n"`, which neither consists solely of uppercase hex digits nor
has even length — the Python regex `$` accepts the trailing newline and
`str.upper` preserves it. -/
theorem blob_shape_cex :
    extract_xrpl_transaction (.dict (.cons (.str "txBlob") (.str "ABC\n") .nil)) =
      some "ABC\n" ∧
    ¬((∀ c ∈ ("ABC\n" : String).data, isUpperHexChar c = true) ∧
      ("ABC\n" : String).length % 2 = 0) := by
  constructor
  · decide
  · decide

/-- C3 (amended): every blob produced by the field extractor or by the
fallback scanner consists of uppercase hexadecimal digits — possibly empty,
and optionally followed by one trailing newline; neither non-emptiness nor
even length is guaranteed. -/
theorem blob_shape_invariant :
    (∀ (v : PyValue) (out : String), extract_xrpl_transaction v = some out → BlobShape out) ∧
    (∀ (s : List Char) (out : String), scanFallback s = some out → BlobShape out) := by
  constructor
  · intro v out h
    exact extractF_shape v.fuel v out h
  · intro s out h
    simp only [scanFallback, Option.map_eq_some'] at h
    obtain ⟨r, hfind, hout⟩ := h
    have hmem : r ∈ re_findall_hex100 s := List.mem_of_find?_eq_some hfind
    have hrun : r ∈ hexRuns s := (List.mem_filter.mp hmem).1
    have hhex : ∀ c ∈ r, isHexChar c = true :=
      hexRunsAux_all_hex s [] (by simp) r hrun
    refine ⟨pyUpperL r, Or.inl (by rw [← hout]), ?_⟩
    intro c hc
    obtain ⟨c0, hc0, rfl⟩ := List.mem_map.mp hc
    exact hexUpper_ok c0 (hhex c0 hc0)

/-- Witness for C3 at a concrete extractor output and a concrete scanner
output. -/
theorem blob_shape_invariant_witness :
    BlobShape "AB" ∧ BlobShape (⟨pyUpperL (List.replicate 102 '0')⟩ : String) :=
  ⟨blob_shape_invariant.1 (.dict (.cons (.str "txBlob") (.str "AB") .nil)) "AB" (by decide),
   blob_shape_invariant.2 (List.replicate 102 '0') _ (by decide)⟩

/-! ## C7: prefix stripping -/

/-- The orchestrator only looks at the input through its stripped content. -/
theorem decode_keystone_ur_congr (u1 u2 : String) (h : stripContent u1 = stripContent u2) :
    decode_keystone_ur u1 = decode_keystone_ur u2 := by
  simp only [decode_keystone_ur, h]

/-- C7 (counterexample): for the input that itself starts with `UR:BYTES/`,
prefixing `UR:BYTES/` once more changes the result — the orchestrator strips
only one copy of the marker, so the two decodes differ. -/
theorem strip_marker_cex :
    decode_keystone_ur ("UR:BYTES/" ++ "UR:BYTES/AAERAAC1AAC6AAC3AADMAAC0AAB3AAB4") = none ∧
    decode_keystone_ur "UR:BYTES/AAERAAC1AAC6AAC3AADMAAC0AAB3AAB4" = some "AB" ∧
    decode_keystone_ur ("UR:BYTES/" ++ "UR:BYTES/AAERAAC1AAC6AAC3AADMAAC0AAB3AAB4") ≠
      decode_keystone_ur "UR:BYTES/AAERAAC1AAC6AAC3AADMAAC0AAB3AAB4" := by
  refine ⟨by decide, by decide, ?_⟩
  intro h
  rw [show decode_keystone_ur ("UR:BYTES/" ++ "UR:BYTES/AAERAAC1AAC6AAC3AADMAAC0AAB3AAB4")
        = none from by decide,
      show decode_keystone_ur "UR:BYTES/AAERAAC1AAC6AAC3AADMAAC0AAB3AAB4"
        = some "AB" from by decide] at h
  exact Option.noConfusion h

/-- C7 (amended): for every string `s` that does not itself start with the
marker `UR:BYTES/`, decoding `"UR:BYTES/" ++ s` gives exactly the same result
as decoding `s`: the orchestrator strips exactly one copy of the marker. -/
theorem strip_marker_once (s : String) (h : urBytesMarker.isPrefixOf s.data = false) :
    decode_keystone_ur ("UR:BYTES/" ++ s) = decode_keystone_ur s := by
  apply decode_keystone_ur_congr
  have hdata : ("UR:BYTES/" ++ s).data = urBytesMarker ++ s.data := rfl
  have hpre : urBytesMarker.isPrefixOf (urBytesMarker ++ s.data) = true := by
    rw [List.isPrefixOf_iff_prefix]
    exact List.prefix_append _ _
  simp only [stripContent, hdata, hpre, if_true, h, if_false, Bool.false_eq_true]
  have h9 : urBytesMarker.length = 9 := rfl
  rw [← h9, List.drop_left]

/-- Witness for the amended C7 at the concrete suffix `"###"`. -/
theorem strip_marker_once_witness :
    decode_keystone_ur ("UR:BYTES/" ++ "###") = decode_keystone_ur "###" :=
  strip_marker_once "###" (by decide)

/-! ## C4: characterization of the fallback scanner -/

theorem hexRunsAux_hex_lead : ∀ (r l acc : List Char),
    (∀ c ∈ r, isHexChar c = true) →
    hexRunsAux (r ++ l) acc = hexRunsAux l (r.reverse ++ acc)
  | [], l, acc, _ => by simp
  | c :: r', l, acc, h => by
    have hc : isHexChar c = true := h c (by simp)
    have ih := hexRunsAux_hex_lead r' l (c :: acc) (fun c' hc' => h c' (by simp [hc']))
    show hexRunsAux ((c :: r') ++ l) acc = hexRunsAux l ((c :: r').reverse ++ acc)
    rw [List.cons_append,
      show hexRunsAux (c :: (r' ++ l)) acc = hexRunsAux (r' ++ l) (c :: acc) from by
        simp [hexRunsAux, hc],
      ih]
    simp [List.append_assoc]

theorem hexRuns_cons_nonhex (c : Char) (s : List Char) (hc : isHexChar c = false) :
    hexRuns (c :: s) = hexRuns s := by
  simp [hexRuns, hexRunsAux, hc]

theorem hexRuns_block (r l : List Char) (hne : r ≠ [])
    (hhex : ∀ c ∈ r, isHexChar c = true)
    (hl : l = [] ∨ ∃ c t, l = c :: t ∧ isHexChar c = false) :
    hexRuns (r ++ l) = r :: hexRuns l := by
  unfold hexRuns
  rw [hexRunsAux_hex_lead r l [] hhex]
  have hemp : (r.reverse ++ []).isEmpty = false := by
    cases hr : r.reverse with
    | nil => exact absurd (by simpa using hr) hne
    | cons x xs => simp [hr]
  rcases hl with rfl | ⟨c, t, rfl, hc⟩
  · show hexRunsAux [] (r.reverse ++ []) = r :: hexRunsAux [] []
    simp [hexRunsAux, hemp]
    exact hne
  · show hexRunsAux (c :: t) (r.reverse ++ []) = r :: hexRunsAux (c :: t) []
    simp only [hexRunsAux, hc, hemp]
    simp

theorem scanFallback_cons_nonhex (c : Char) (s : List Char) (hc : isHexChar c = false) :
    scanFallback (c :: s) = scanFallback s := by
  simp [scanFallback, re_findall_hex100, hexRuns_cons_nonhex c s hc]

theorem scanFallback_block_qual (r l : List Char) (hne : r ≠ [])
    (hhex : ∀ c ∈ r, isHexChar c = true)
    (hl : l = [] ∨ ∃ c t, l = c :: t ∧ isHexChar c = false)
    (hq : QualRun r) :
    scanFallback (r ++ l) = some ⟨pyUpperL r⟩ := by
  simp only [scanFallback, re_findall_hex100, hexRuns_block r l hne hhex hl]
  rw [List.filter_cons, if_pos (by simpa using hq.1), List.find?_cons_of_pos _ hq.2]
  rfl

theorem scanFallback_block_nonqual (r l : List Char) (hne : r ≠ [])
    (hhex : ∀ c ∈ r, isHexChar c = true)
    (hl : l = [] ∨ ∃ c t, l = c :: t ∧ isHexChar c = false)
    (hq : ¬QualRun r) :
    scanFallback (r ++ l) = scanFallback l := by
  simp only [scanFallback, re_findall_hex100, hexRuns_block r l hne hhex hl]
  by_cases hlen : 100 ≤ r.length
  · have hstart : startsQualifying r = false := by
      cases hs : startsQualifying r with
      | true => exact absurd ⟨hlen, hs⟩ hq
      | false => rfl
    rw [List.filter_cons, if_pos (by simpa using hlen), List.find?_cons_of_neg _ (by simp [hstart])]
  · rw [List.filter_cons, if_neg (by simpa using hlen)]

theorem isMax_nil (a r : List Char) (h : IsMaxHexRunAt [] a r) : False := by
  obtain ⟨hne, _, ⟨b, hb, _⟩, _⟩ := h
  have hlen := congrArg List.length hb
  simp only [List.length_nil, List.length_append] at hlen
  have : 0 < r.length := List.length_pos.mpr hne
  omega

theorem isMax_cons_nonhex (c : Char) (s : List Char) (hc : isHexChar c = false)
    (a r : List Char) :
    IsMaxHexRunAt (c :: s) a r ↔ ∃ a2, a = c :: a2 ∧ IsMaxHexRunAt s a2 r := by
  constructor
  · rintro ⟨hne, hhex, ⟨b, hb, hbcond⟩, hacond⟩
    cases a with
    | nil =>
      exfalso
      simp only [List.nil_append] at hb
      cases r with
      | nil => exact hne rfl
      | cons rc rt =>
        simp only [List.cons_append, List.cons.injEq] at hb
        have : isHexChar rc = true := hhex rc (by simp)
        rw [← hb.1] at this
        rw [this] at hc
        exact Bool.noConfusion hc
    | cons a0 a2 =>
      simp only [List.cons_append, List.cons.injEq] at hb
      refine ⟨a2, by rw [hb.1], hne, hhex, ⟨b, hb.2, hbcond⟩, ?_⟩
      rcases hacond with habs | ⟨a3, ch, hae, hch⟩
      · exact absurd habs (by simp)
      · cases a3 with
        | nil =>
          left
          simp only [List.nil_append, List.cons.injEq] at hae
          exact hae.2
        | cons a30 a3t =>
          right
          simp only [List.cons_append, List.cons.injEq] at hae
          exact ⟨a3t, ch, hae.2, hch⟩
  · rintro ⟨a2, rfl, hne, hhex, ⟨b, hb, hbcond⟩, hacond⟩
    refine ⟨hne, hhex, ⟨b, by rw [hb]; simp, hbcond⟩, ?_⟩
    rcases hacond with rfl | ⟨a4, ch, rfl, hch⟩
    · exact Or.inr ⟨[], c, rfl, hc⟩
    · exact Or.inr ⟨c :: a4, ch, rfl, hch⟩

theorem takeWhile_all (p : Char → Bool) : ∀ (r b : List Char),
    (∀ c ∈ r, p c = true) → (b = [] ∨ ∃ c t, b = c :: t ∧ p c = false) →
    (r ++ b).takeWhile p = r
  | [], b, _, hb => by
    rcases hb with rfl | ⟨c, t, rfl, hc⟩
    · simp
    · simp [List.takeWhile_cons, hc]
  | c :: r', b, hr, hb => by
    have hc : p c = true := hr c (by simp)
    simp only [List.cons_append, List.takeWhile_cons, hc, if_true]
    rw [takeWhile_all p r' b (fun x hx => hr x (by simp [hx])) hb]

theorem dropWhile_head_false (p : Char → Bool) : ∀ (l : List Char) (c : Char) (t : List Char),
    l.dropWhile p = c :: t → p c = false
  | [], c, t, h => by simp at h
  | x :: l', c, t, h => by
    rw [List.dropWhile_cons] at h
    by_cases hx : p x = true
    · rw [if_pos hx] at h
      exact dropWhile_head_false p l' c t h
    · rw [if_neg hx] at h
      injection h with h1 _
      rw [← h1]
      cases hpx : p x with
      | true => exact absurd hpx hx
      | false => rfl

theorem isMax_block (r0 l0 : List Char) (h0ne : r0 ≠ [])
    (h0hex : ∀ c ∈ r0, isHexChar c = true)
    (hl0 : l0 = [] ∨ ∃ c t, l0 = c :: t ∧ isHexChar c = false) (a r : List Char) :
    IsMaxHexRunAt (r0 ++ l0) a r ↔
      (a = [] ∧ r = r0) ∨ (∃ a2, a = r0 ++ a2 ∧ a2 ≠ [] ∧ IsMaxHexRunAt l0 a2 r) := by
  constructor
  · rintro ⟨hne, hhex, ⟨b, hb, hbcond⟩, hacond⟩
    rcases hacond with rfl | ⟨a3, ch, hae, hch⟩
    · left
      simp only [List.nil_append] at hb
      refine ⟨rfl, ?_⟩
      have h1 := takeWhile_all isHexChar r b hhex hbcond
      have h2 := takeWhile_all isHexChar r0 l0 h0hex hl0
      have hb' : r ++ b = r0 ++ l0 := by rw [← hb]
      rw [hb'] at h1
      rw [h2] at h1
      exact h1.symm
    · right
      have hasub : a <+: (r0 ++ l0) := ⟨r ++ b, by rw [hb]; simp [List.append_assoc]⟩
      have hr0pre : r0 <+: (r0 ++ l0) := List.prefix_append r0 l0
      have hlen : r0.length < a.length := by
        by_contra hle
        push_neg at hle
        have hsub : a <+: r0 := List.prefix_of_prefix_length_le hasub hr0pre hle
        have hmem : ch ∈ a := by rw [hae]; simp
        have hchr0 : ch ∈ r0 := hsub.subset hmem
        have := h0hex ch hchr0
        rw [this] at hch
        exact Bool.noConfusion hch
      have hpre2 : r0 <+: a := List.prefix_of_prefix_length_le hr0pre hasub (by omega)
      obtain ⟨a2, rfl⟩ := hpre2
      have ha2ne : a2 ≠ [] := by
        intro he
        rw [he] at hlen
        simp at hlen
      refine ⟨a2, rfl, ha2ne, hne, hhex, ⟨b, ?_, hbcond⟩, ?_⟩
      · have hcancel : r0 ++ l0 = r0 ++ (a2 ++ r ++ b) := by
          rw [hb]
          simp [List.append_assoc]
        exact List.append_cancel_left hcancel
      · cases a2 using List.reverseRecOn with
        | nil => exact absurd rfl ha2ne
        | append_singleton a5 c5 =>
          right
          have hgl : c5 = ch := by
            have h1 : (r0 ++ (a5 ++ [c5])).getLast? = some c5 := by
              rw [show r0 ++ (a5 ++ [c5]) = (r0 ++ a5) ++ [c5] by simp [List.append_assoc]]
              exact List.getLast?_concat _
            rw [hae] at h1
            rw [List.getLast?_concat] at h1
            injection h1 with h1
            exact h1.symm
          exact ⟨a5, c5, rfl, by rw [hgl]; exact hch⟩
  · rintro (⟨rfl, rfl⟩ | ⟨a2, rfl, ha2ne, hne, hhex, ⟨b, hb, hbcond⟩, hacond⟩)
    · exact ⟨h0ne, h0hex, ⟨l0, by simp, hl0⟩, Or.inl rfl⟩
    · refine ⟨hne, hhex, ⟨b, by rw [hb]; simp [List.append_assoc], hbcond⟩, ?_⟩
      rcases hacond with rfl | ⟨a4, ch, rfl, hch⟩
      · exact absurd rfl ha2ne
      · exact Or.inr ⟨r0 ++ a4, ch, by simp [List.append_assoc], hch⟩

theorem isMax_nonhex_head (l0 a r : List Char)
    (hl0 : l0 = [] ∨ ∃ c t, l0 = c :: t ∧ isHexChar c = false)
    (h : IsMaxHexRunAt l0 a r) : a ≠ [] := by
  intro he
  subst he
  obtain ⟨hne, hhex, ⟨b, hb, _⟩, _⟩ := h
  simp only [List.nil_append] at hb
  rcases hl0 with rfl | ⟨c, t, heq, hc⟩
  · cases r with
    | nil => exact hne rfl
    | cons rc rt => simp at hb
  · cases r with
    | nil => exact hne rfl
    | cons rc rt =>
      rw [heq] at hb
      simp only [List.cons_append, List.cons.injEq] at hb
      have := hhex rc (by simp)
      rw [← hb.1] at this
      rw [this] at hc
      exact Bool.noConfusion hc

/-- C4: the fallback scanner returns precisely the first maximal run of 100
or more consecutive hexadecimal characters that starts with one of the
markers `12`, `00`, `01`, `02`, `03`, `05`, upper-cased, and `none` when no
maximal run qualifies. -/
theorem scanner_characterization (s : List Char) :
    (∀ out, scanFallback s = some out →
      ∃ a r, IsMaxHexRunAt s a r ∧ QualRun r ∧ out = ⟨pyUpperL r⟩ ∧
        ∀ a2 r2, IsMaxHexRunAt s a2 r2 → QualRun r2 → a.length ≤ a2.length) ∧
    (scanFallback s = none → ∀ a r, IsMaxHexRunAt s a r → ¬QualRun r) := by
  have main : ∀ (n : Nat) (s : List Char), s.length ≤ n →
      (∀ out, scanFallback s = some out →
        ∃ a r, IsMaxHexRunAt s a r ∧ QualRun r ∧ out = ⟨pyUpperL r⟩ ∧
          ∀ a2 r2, IsMaxHexRunAt s a2 r2 → QualRun r2 → a.length ≤ a2.length) ∧
      (scanFallback s = none → ∀ a r, IsMaxHexRunAt s a r → ¬QualRun r) := by
    intro n
    induction n with
    | zero =>
      intro s hle
      have hs : s = [] := List.length_eq_zero.mp (by omega)
      subst hs
      constructor
      · intro out h
        simp [scanFallback, re_findall_hex100, hexRuns, hexRunsAux] at h
      · intro _ a r h
        exact absurd (isMax_nil a r h) id
    | succ n IHn =>
      intro s hle
      cases s with
      | nil =>
        constructor
        · intro out h
          simp [scanFallback, re_findall_hex100, hexRuns, hexRunsAux] at h
        · intro _ a r h
          exact absurd (isMax_nil a r h) id
      | cons c t =>
        by_cases hc : isHexChar c = true
        · -- hex head: split off the maximal hex prefix
          obtain ⟨r0, l0, hsplit, h0ne, h0hex, hl0, hlen0⟩ :
              ∃ r0 l0, c :: t = r0 ++ l0 ∧ r0 ≠ [] ∧
                (∀ x ∈ r0, isHexChar x = true) ∧
                (l0 = [] ∨ ∃ c' t', l0 = c' :: t' ∧ isHexChar c' = false) ∧
                l0.length ≤ t.length := by
            refine ⟨(c :: t).takeWhile isHexChar, (c :: t).dropWhile isHexChar,
              (List.takeWhile_append_dropWhile (p := isHexChar) (l := c :: t)).symm,
              ?_, ?_, ?_, ?_⟩
            · rw [List.takeWhile_cons, if_pos hc]
              simp
            · intro x hx
              exact List.mem_takeWhile_imp hx
            · cases hl : (c :: t).dropWhile isHexChar with
              | nil => exact Or.inl rfl
              | cons c' t' => exact Or.inr ⟨c', t', rfl, dropWhile_head_false _ _ _ _ hl⟩
            · rw [List.dropWhile_cons, if_pos hc]
              exact (List.dropWhile_sublist isHexChar).length_le
          rw [hsplit]
          have IHl := IHn l0 (by simp only [List.length_cons] at hle; omega)
          by_cases hq0 : QualRun r0
          · have hscan := scanFallback_block_qual r0 l0 h0ne h0hex hl0 hq0
            constructor
            · intro out h
              rw [hscan] at h
              injection h with h
              refine ⟨[], r0, (isMax_block r0 l0 h0ne h0hex hl0 [] r0).mpr
                (Or.inl ⟨rfl, rfl⟩), hq0, h.symm, ?_⟩
              intro a2 r2 _ _
              simp
            · intro h
              rw [hscan] at h
              exact absurd h (by simp)
          · have hscan := scanFallback_block_nonqual r0 l0 h0ne h0hex hl0 hq0
            constructor
            · intro out h
              rw [hscan] at h
              obtain ⟨a, r, hmax, hq, hout, hmin⟩ := IHl.1 out h
              have hane : a ≠ [] := isMax_nonhex_head l0 a r hl0 hmax
              refine ⟨r0 ++ a, r, (isMax_block r0 l0 h0ne h0hex hl0 (r0 ++ a) r).mpr
                (Or.inr ⟨a, rfl, hane, hmax⟩), hq, hout, ?_⟩
              intro a2 r2 h2 hq2
              rcases (isMax_block r0 l0 h0ne h0hex hl0 a2 r2).mp h2 with
                ⟨rfl, rfl⟩ | ⟨a3, rfl, ha3ne, h3⟩
              · exact absurd hq2 hq0
              · have := hmin a3 r2 h3 hq2
                simp only [List.length_append]
                omega
            · intro h a r hmax hq
              rw [hscan] at h
              rcases (isMax_block r0 l0 h0ne h0hex hl0 a r).mp hmax with
                ⟨_, rfl⟩ | ⟨a3, _, _, h3⟩
              · exact hq0 hq
              · exact IHl.2 h a3 r h3 hq
        · -- non-hex head
          have hcf : isHexChar c = false := by
            cases hx : isHexChar c with
            | true => exact absurd hx hc
            | false => rfl
          have hscan := scanFallback_cons_nonhex c t hcf
          have IHt := IHn t (by simp only [List.length_cons] at hle; omega)
          constructor
          · intro out h
            rw [hscan] at h
            obtain ⟨a, r, hmax, hq, hout, hmin⟩ := IHt.1 out h
            refine ⟨c :: a, r, (isMax_cons_nonhex c t hcf (c :: a) r).mpr
              ⟨a, rfl, hmax⟩, hq, hout, ?_⟩
            intro a2 r2 h2 hq2
            obtain ⟨a3, rfl, h3⟩ := (isMax_cons_nonhex c t hcf a2 r2).mp h2
            have := hmin a3 r2 h3 hq2
            simp only [List.length_cons]
            omega
          · intro h a r hmax
            rw [hscan] at h
            obtain ⟨a3, rfl, h3⟩ := (isMax_cons_nonhex c t hcf a r).mp hmax
            exact IHt.2 h a3 r h3
  exact main s.length s le_rfl

/-- Witness for C4: a qualifying input (the marker `12` followed by 100 hex
characters) and a non-qualifying input `"zz"`. -/
theorem scanner_characterization_witness :
    (∃ a r, IsMaxHexRunAt ('1' :: '2' :: List.replicate 100 'a') a r ∧ QualRun r ∧
      (⟨pyUpperL ('1' :: '2' :: List.replicate 100 'a')⟩ : String) = ⟨pyUpperL r⟩ ∧
      ∀ a2 r2, IsMaxHexRunAt ('1' :: '2' :: List.replicate 100 'a') a2 r2 → QualRun r2 →
        a.length ≤ a2.length) ∧
    (∀ a r, IsMaxHexRunAt ['z', 'z'] a r → ¬QualRun r) :=
  ⟨(scanner_characterization ('1' :: '2' :: List.replicate 100 'a')).1
     ⟨pyUpperL ('1' :: '2' :: List.replicate 100 'a')⟩ (by decide),
   (scanner_characterization ['z', 'z']).2 (by decide)⟩

end Keystone
